import Mathlib

/-
Shallow embedding of the sharded LRU key-value cache (Go, package main).
The embedded code is the sharded engine: `CacheEntry`, `Shard`,
`ShardedCache`, `NewShardedCache`, `getShard` (partitioning hash),
`Put`, `Get`, `Shard.evictOne`, `EvictBatch`.

Modelling choices, all taken from the source:
- Go strings are modelled as Lean `String` (sequences of code points).
  `len(s)` in Go counts UTF-8 bytes, so it is embedded as `goLen`
  (the sum of the UTF-8 widths of the code points);
  `for _, char := range s` iterates code points, so the hash folds over
  `s.data`.
- Go `int` is 64-bit two's-complement; the hash arithmetic can overflow,
  so it is embedded with an explicit wrap into [-2^63, 2^63) (`wrap64`).
  The byte counters (`shard.size`, `totalSize`, entry sizes) are int64s
  that in the program stay far below 2^63, and are modelled as
  unbounded `Int`.
- A `Shard` owns `items : map[string]*list.Element` and
  `evictList : *list.List` whose elements hold `*CacheEntry`; the map
  binds each present key to the identity of its unique list node.  The
  pair `(items, evictList)` is embedded as one list of
  (key, entry) pairs in recency order (head = front = most recently
  used, last = back = least recently used): the key attached to a node
  records which map binding points at that node.  Map lookup is
  `lookup`, map delete is `removeKey`, `MoveToFront` is re-consing the
  (updated) pair after `removeKey`.
- `time.Now()` is modelled by a logical clock stored in the cache
  state; every operation that calls `time.Now()` to stamp an entry
  stamps it with the current clock value and advances the clock.
- Locks order intra-shard operations; in this sequential embedding each
  exported operation is one atomic step.  The sequence of lock
  acquisitions and releases performed by `Get`, which is what claim C3
  is about, is embedded separately and literally as `getLockTrace`.
-/

set_option maxHeartbeats 1000000
set_option maxRecDepth 10000

namespace KvCache


/-- NumShards constant from the source configuration block (32). -/
def NumShards : Nat := 32

/-- MaxKeySize constant from the source configuration block (256). -/
def MaxKeySize : Nat := 256

/-- MaxValueSize constant from the source configuration block (256). -/
def MaxValueSize : Nat := 256

/-- EvictionBatchSize constant from the source configuration block (100). -/
def EvictionBatchSize : Nat := 100

/-- UTF-8 byte width of a single code point, as Go encodes strings. -/
def charBytes (c : Char) : Nat :=
  if c.toNat < 0x80 then 1
  else if c.toNat < 0x800 then 2
  else if c.toNat < 0x10000 then 3
  else 4

/-- Go `len(s)` on a string: the number of UTF-8 bytes. -/
def goLen (s : String) : Nat := (s.data.map charBytes).sum

/-- Two's-complement wrap of an integer into the int64 range [-2^63, 2^63). -/
def wrap64 (n : Int) : Int := (n + 2 ^ 63) % 2 ^ 64 - 2 ^ 63

/-- One step of the rolling hash in `getShard`: `hash = 31*hash + int(char)`,
with Go int64 overflow made explicit. -/
def hashStep (h : Int) (c : Char) : Int := wrap64 (31 * h + (c.toNat : Int))

/-- The rolling hash loop of `getShard` over the key's code points. -/
def goHash (key : String) : Int := key.data.foldl hashStep 0

/-- The `if hash < 0 { hash = -hash }` step of `getShard`; Go negation of
int64 also wraps (so `-MinInt64 = MinInt64`). -/
def goAbs (h : Int) : Int := if h < 0 then wrap64 (-h) else h

/-- The shard index computed by `getShard`: rolling hash, absolute value,
remainder modulo NumShards (Go `%` truncates, hence `Int.tmod`). -/
def shardIdx (key : String) : Nat :=
  ((goAbs (goHash key)).tmod (NumShards : Int)).toNat

/-- CacheEntry from the source: value, timestamp, size in bytes.  (It has
no key field; the key is recorded only by the map binding, embedded here
as the tag on the shard's pair list.) -/
structure CacheEntry where
  value : String
  timestamp : Nat
  size : Int
deriving DecidableEq

/-- Shard from the source: `items` map plus `evictList` (embedded together
as `entries`, head = front) and the tracked `size` in bytes. -/
structure Shard where
  entries : List (String × CacheEntry)
  size : Int
deriving DecidableEq

/-- ShardedCache from the source: the shard array (a list of length
NumShards), the global `totalSize`, and the logical clock standing for
`time.Now()`. -/
structure ShardedCache where
  shards : List Shard
  totalSize : Int
  clock : Nat
deriving DecidableEq

/-- A freshly constructed shard, as built in `NewShardedCache`. -/
def emptyShard : Shard := ⟨[], 0⟩

/-- NewShardedCache: NumShards empty shards, zero total size. -/
def NewShardedCache : ShardedCache :=
  ⟨List.replicate NumShards emptyShard, 0, 0⟩

/-- Lookup `shard.items[key]`: the entry of the unique node bound to `key`
(first match in the pair list). -/
def lookup : List (String × CacheEntry) → String → Option CacheEntry
  | [], _ => none
  | p :: rest, key => if p.1 = key then some p.2 else lookup rest key

/-- Delete `shard.items[key]` together with its list node: remove the first
pair bound to `key`. -/
def removeKey : List (String × CacheEntry) → String → List (String × CacheEntry)
  | [], _ => []
  | p :: rest, key => if p.1 = key then rest else p :: removeKey rest key

/-- The `entrySize` computation in `Put`: `len(key) + len(value) + 64`. -/
def entrySize (key value : String) : Int := (goLen key : Int) + (goLen value : Int) + 64

/-- ShardedCache.Put.  Returns the new cache state and the error
(`some msg` embeds the non-nil `error` return; on error the state is
returned untouched, as the Go method returns before mutating anything).
The hit branch updates the entry in place, moves its node to the front
and applies the size delta; the miss branch pushes a fresh node to the
front.  Both stamp `time.Now()` (the clock). -/
def Put (c : ShardedCache) (key value : String) : ShardedCache × Option String :=
  if goLen key > MaxKeySize || goLen value > MaxValueSize then
    (c, some "key or value exceeds maximum size")
  else
    let esz := entrySize key value
    let i := shardIdx key
    let sh := c.shards.getD i emptyShard
    match lookup sh.entries key with
    | some old =>
        let e : CacheEntry := ⟨value, c.clock, esz⟩
        let sh2 : Shard := ⟨(key, e) :: removeKey sh.entries key, sh.size + (esz - old.size)⟩
        (⟨c.shards.set i sh2, c.totalSize + (esz - old.size), c.clock + 1⟩, none)
    | none =>
        let e : CacheEntry := ⟨value, c.clock, esz⟩
        let sh2 : Shard := ⟨(key, e) :: sh.entries, sh.size + esz⟩
        (⟨c.shards.set i sh2, c.totalSize + esz, c.clock + 1⟩, none)

/-- ShardedCache.Get.  Returns `((value, found), newState)`.  On a hit the
entry's timestamp is refreshed and its node moved to the front; shard
`size` and `totalSize` are untouched.  On a miss it returns
`("", false)` and mutates nothing. -/
def Get (c : ShardedCache) (key : String) : (String × Bool) × ShardedCache :=
  let i := shardIdx key
  let sh := c.shards.getD i emptyShard
  match lookup sh.entries key with
  | some e =>
      let e2 : CacheEntry := ⟨e.value, c.clock, e.size⟩
      let sh2 : Shard := ⟨(key, e2) :: removeKey sh.entries key, sh.size⟩
      ((e.value, true), ⟨c.shards.set i sh2, c.totalSize, c.clock + 1⟩)
  | none => (("", false), c)

/-- Shard.evictOne.  Removes the back (least recently used) node, deletes
its map binding, decrements the shard's size by the entry's stored size
and returns the freed bytes; on an empty shard it returns 0.  In the Go
source the map binding is found by scanning `shard.items` for the
element pointer (see `scanSteps` and claim C4); given the map/list
bijection that scan deletes exactly the back node's key, which is what
removing the last pair does here. -/
def evictOne (sh : Shard) : Shard × Int :=
  match sh.entries.getLast? with
  | none => (sh, 0)
  | some kv => (⟨sh.entries.dropLast, sh.size - kv.2.size⟩, kv.2.size)

/-- The per-shard loop of EvictBatch:
`for j := 0; j < perShard && shard.evictList.Len() > 0; j++`, calling
`evictOne` each iteration and accumulating freed bytes. -/
def evictN : Shard → Nat → Shard × Int
  | sh, 0 => (sh, 0)
  | sh, j + 1 =>
    if sh.entries.length > 0 then
      let r1 := evictOne sh
      let r2 := evictN r1.1 j
      (r2.1, r1.2 + r2.2)
    else (sh, 0)

/-- ShardedCache.EvictBatch: computes `perShard = count / NumShards`
raised to at least 1, runs the per-shard loop on every shard, subtracts
each shard's freed bytes from `totalSize` (accumulated here as one
subtraction of the total) and returns the total freed. -/
def EvictBatch (c : ShardedCache) (count : Nat) : ShardedCache × Int :=
  let perShard := if count / NumShards < 1 then 1 else count / NumShards
  let results := c.shards.map (fun sh => evictN sh perShard)
  let freed := (results.map Prod.snd).sum
  (⟨results.map Prod.fst, c.totalSize - freed, c.clock⟩, freed)

/-- Lock operations on a shard's `sync.RWMutex`. -/
inductive LockEvent where
  | rlock
  | runlock
  | wlock
  | wunlock
deriving DecidableEq

/-- The exact sequence of lock calls `ShardedCache.Get` performs on the
shard's lock, read off the source: `RLock` (l.142), deferred `RUnlock`
(l.143, runs at return); on a hit additionally `RUnlock` (l.150),
`Lock` (l.151), `Unlock` (l.159), `RLock` (l.160) before returning. -/
def getLockTrace (hit : Bool) : List LockEvent :=
  if hit then
    [LockEvent.rlock, LockEvent.runlock, LockEvent.wlock, LockEvent.wunlock,
     LockEvent.rlock, LockEvent.runlock]
  else
    [LockEvent.rlock, LockEvent.runlock]

/-- Number of map bindings the `for key, el := range shard.items` scan in
`Shard.evictOne` examines before hitting the binding of `target`, when
the map is enumerated in the given order (Go map iteration order is
unspecified, so claims quantify over the order). -/
def scanSteps : List String → String → Nat
  | [], _ => 0
  | k :: rest, target => if k = target then 1 else 1 + scanSteps rest target

/-- Sum of the stored sizes of the entries of a pair list. -/
def entriesSize (l : List (String × CacheEntry)) : Int :=
  (l.map (fun p => p.2.size)).sum

/-- Per-shard accounting invariant: the tracked `size` field equals the sum
of the stored sizes of the entries the shard holds. -/
def shardOk (sh : Shard) : Prop := sh.size = entriesSize sh.entries

/-- Cache-wide accounting invariant: `totalSize` equals the sum of the
shards' `size` fields, and every shard satisfies `shardOk`. -/
def cacheOk (c : ShardedCache) : Prop :=
  c.totalSize = (c.shards.map Shard.size).sum ∧ ∀ sh ∈ c.shards, shardOk sh

instance (sh : Shard) : Decidable (shardOk sh) := by
  unfold shardOk; infer_instance

instance (c : ShardedCache) : Decidable (cacheOk c) := by
  unfold cacheOk; infer_instance

/-- A top-level mutating call on the cache: `Put` or `EvictBatch`
(`evictOne` runs inside `EvictBatch`, which settles the freed bytes
against `totalSize`). -/
inductive Op where
  | put (key value : String)
  | evict (count : Nat)

/-- Applying one call to a cache state (a failed `Put` leaves the state
as the code left it, untouched). -/
def applyOp (c : ShardedCache) : Op → ShardedCache
  | Op.put k v => (Put c k v).1
  | Op.evict n => (EvictBatch c n).1

/-- Running a call sequence from a freshly constructed cache. -/
def runOps (ops : List Op) : ShardedCache := ops.foldl applyOp NewShardedCache

/-- Key of length m + 1 (all one letter), used to build concrete shard
states with any number of distinct keys. -/
def repKey (m : Nat) : String := String.mk (List.replicate (m + 1) 'k')

/-- Value stored for a key, read through the partitioner, or none. -/
def valueAt (c : ShardedCache) (k : String) : Option String :=
  (lookup ((c.shards.getD (shardIdx k) emptyShard)).entries k).map CacheEntry.value



theorem getD_replicate_lt {n i : Nat} {x d : Shard} (h : i < n) :
    (List.replicate n x).getD i d = x := by
  induction n generalizing i with
  | zero => omega
  | succ m ih =>
    cases i with
    | zero => simp [List.replicate]
    | succ j => simpa [List.replicate] using ih (by omega)

theorem getD_set_self {l : List Shard} {i : Nat} {x d : Shard} (h : i < l.length) :
    (l.set i x).getD i d = x := by
  induction l generalizing i with
  | nil => simp at h
  | cons a t ih =>
    cases i with
    | zero => simp
    | succ j => simpa using ih (by simpa using h)

theorem getD_set_ne {l : List Shard} {i j : Nat} {x d : Shard} (h : j ≠ i) :
    (l.set i x).getD j d = l.getD j d := by
  induction l generalizing i j with
  | nil => simp
  | cons a t ih =>
    cases i with
    | zero =>
      cases j with
      | zero => omega
      | succ m => simp
    | succ k =>
      cases j with
      | zero => simp
      | succ m => simpa using ih (by omega)

theorem getD_mem {l : List Shard} {i : Nat} {d : Shard} (h : i < l.length) :
    l.getD i d ∈ l := by
  induction l generalizing i with
  | nil => simp at h
  | cons a t ih =>
    cases i with
    | zero => simp
    | succ j =>
      simp only [List.getD_cons_succ]
      exact List.mem_cons_of_mem _ (ih (by simpa using h))

theorem wrap64_lb (n : Int) : -(2 ^ 63) ≤ wrap64 n := by
  unfold wrap64
  have h1 : 0 ≤ (n + 2 ^ 63) % 2 ^ 64 :=
    Int.emod_nonneg _ (by norm_num)
  omega

theorem wrap64_ub (n : Int) : wrap64 n < 2 ^ 63 := by
  unfold wrap64
  have h2 : (n + 2 ^ 63) % 2 ^ 64 < 2 ^ 64 :=
    Int.emod_lt_of_pos _ (by norm_num)
  omega

theorem wrap64_id {n : Int} (h1 : -(2 ^ 63) ≤ n) (h2 : n < 2 ^ 63) : wrap64 n = n := by
  unfold wrap64
  rw [Int.emod_eq_of_lt (by omega) (by omega)]
  omega

theorem goHash_lb (key : String) : -(2 ^ 63) ≤ goHash key := by
  unfold goHash
  have : ∀ (l : List Char) (h : Int), -(2 ^ 63) ≤ h → -(2 ^ 63) ≤ l.foldl hashStep h := by
    intro l
    induction l with
    | nil => intro h hh; simpa using hh
    | cons c t ih =>
      intro h hh
      simpa using ih (hashStep h c) (wrap64_lb _)
  exact this _ 0 (by norm_num)

theorem goHash_ub (key : String) : goHash key < 2 ^ 63 := by
  unfold goHash
  have : ∀ (l : List Char) (h : Int), h < 2 ^ 63 → l.foldl hashStep h < 2 ^ 63 := by
    intro l
    induction l with
    | nil => intro h hh; simpa using hh
    | cons c t ih =>
      intro h hh
      simpa using ih (hashStep h c) (wrap64_ub _)
  exact this _ 0 (by norm_num)

theorem goAbs_cases (h : Int) (h1 : -(2 ^ 63) ≤ h) (h2 : h < 2 ^ 63) :
    (0 ≤ goAbs h ∧ goAbs h < 2 ^ 63) ∨ goAbs h = -(2 ^ 63) := by
  unfold goAbs
  by_cases hneg : h < 0
  · rw [if_pos hneg]
    by_cases hmin : h = -(2 ^ 63)
    · right
      subst hmin
      unfold wrap64
      norm_num
    · left
      rw [wrap64_id (by omega) (by omega)]
      omega
  · rw [if_neg hneg]
    left
    omega

theorem tmod32_range (h : Int) (hc : (0 ≤ h ∧ h < 2 ^ 63) ∨ h = -(2 ^ 63)) :
    0 ≤ h.tmod 32 ∧ h.tmod 32 < 32 := by
  rcases hc with ⟨h0, _⟩ | hmin
  · rw [Int.tmod_eq_emod h0 (by norm_num)]
    exact ⟨Int.emod_nonneg _ (by norm_num), Int.emod_lt_of_pos _ (by norm_num)⟩
  · subst hmin
    decide

theorem shardIdx_lt (key : String) : shardIdx key < NumShards := by
  unfold shardIdx
  have hr := tmod32_range (goAbs (goHash key))
    (goAbs_cases _ (goHash_lb key) (goHash_ub key))
  unfold NumShards
  simp only [Nat.cast_ofNat] at hr ⊢
  omega



theorem lookup_cons_self (key : String) (e : CacheEntry) (l : List (String × CacheEntry)) :
    lookup ((key, e) :: l) key = some e := by
  simp [lookup]

theorem put_miss {c : ShardedCache} {key value : String}
    (hk : goLen key ≤ MaxKeySize) (hv : goLen value ≤ MaxValueSize)
    (hl : lookup (c.shards.getD (shardIdx key) emptyShard).entries key = none) :
    Put c key value =
      (⟨c.shards.set (shardIdx key)
          ⟨(key, ⟨value, c.clock, entrySize key value⟩) ::
             (c.shards.getD (shardIdx key) emptyShard).entries,
           (c.shards.getD (shardIdx key) emptyShard).size + entrySize key value⟩,
        c.totalSize + entrySize key value, c.clock + 1⟩, none) := by
  unfold Put
  rw [if_neg (by simp; omega)]
  simp only [hl]

theorem put_hit {c : ShardedCache} {key value : String} {old : CacheEntry}
    (hk : goLen key ≤ MaxKeySize) (hv : goLen value ≤ MaxValueSize)
    (hl : lookup (c.shards.getD (shardIdx key) emptyShard).entries key = some old) :
    Put c key value =
      (⟨c.shards.set (shardIdx key)
          ⟨(key, ⟨value, c.clock, entrySize key value⟩) ::
             removeKey (c.shards.getD (shardIdx key) emptyShard).entries key,
           (c.shards.getD (shardIdx key) emptyShard).size + (entrySize key value - old.size)⟩,
        c.totalSize + (entrySize key value - old.size), c.clock + 1⟩, none) := by
  unfold Put
  rw [if_neg (by simp; omega)]
  simp only [hl]

theorem get_miss {c : ShardedCache} {key : String}
    (hl : lookup (c.shards.getD (shardIdx key) emptyShard).entries key = none) :
    Get c key = (("", false), c) := by
  unfold Get
  simp only [hl]

theorem get_hit {c : ShardedCache} {key : String} {e : CacheEntry}
    (hl : lookup (c.shards.getD (shardIdx key) emptyShard).entries key = some e) :
    Get c key = ((e.value, true),
      ⟨c.shards.set (shardIdx key)
          ⟨(key, ⟨e.value, c.clock, e.size⟩) ::
             removeKey (c.shards.getD (shardIdx key) emptyShard).entries key,
           (c.shards.getD (shardIdx key) emptyShard).size⟩,
        c.totalSize, c.clock + 1⟩) := by
  unfold Get
  simp only [hl]

theorem put_shards_shape (c : ShardedCache) (key value : String)
    (hk : goLen key ≤ MaxKeySize) (hv : goLen value ≤ MaxValueSize) :
    (Put c key value).2 = none ∧
    ∃ rest sz, (Put c key value).1.shards =
      c.shards.set (shardIdx key)
        ⟨(key, ⟨value, c.clock, entrySize key value⟩) :: rest, sz⟩ := by
  cases hl : lookup (c.shards.getD (shardIdx key) emptyShard).entries key with
  | none => rw [put_miss hk hv hl]; exact ⟨rfl, _, _, rfl⟩
  | some old => rw [put_hit hk hv hl]; exact ⟨rfl, _, _, rfl⟩

/-- C8: the partitioner is a pure, deterministic function of the key that
always returns a shard index in [0, NumShards). -/
theorem c8_partitioner_deterministic_range (key : String) :
    shardIdx key < NumShards ∧ ∀ key2 : String, key2 = key → shardIdx key2 = shardIdx key :=
  ⟨shardIdx_lt key, fun _ h => by rw [h]⟩

theorem c8_witness :
    shardIdx "example" < NumShards ∧ shardIdx "example" = shardIdx "example" :=
  ⟨(c8_partitioner_deterministic_range "example").1,
   (c8_partitioner_deterministic_range "example").2 "example" rfl⟩

/-- C1: a Put of a key and value each of at most 256 bytes succeeds (returns
no error), and an immediately following Get of that key returns the value
with the found flag, from any cache state with the full shard array. -/
theorem c1_round_trip (c : ShardedCache) (key value : String)
    (hlen : c.shards.length = NumShards)
    (hk : goLen key ≤ MaxKeySize) (hv : goLen value ≤ MaxValueSize) :
    (Put c key value).2 = none ∧ (Get (Put c key value).1 key).1 = (value, true) := by
  have hidx : shardIdx key < c.shards.length := by
    rw [hlen]; exact shardIdx_lt key
  obtain ⟨h2, rest, sz, hsh⟩ := put_shards_shape c key value hk hv
  refine ⟨h2, ?_⟩
  have hl2 : lookup (((Put c key value).1.shards.getD (shardIdx key) emptyShard)).entries key
      = some ⟨value, c.clock, entrySize key value⟩ := by
    rw [hsh, getD_set_self (by simpa using hidx)]
    exact lookup_cons_self _ _ _
  rw [get_hit hl2]

theorem c1_witness :
    (Put NewShardedCache "example" "data").2 = none ∧
    (Get (Put NewShardedCache "example" "data").1 "example").1 = ("data", true) :=
  c1_round_trip NewShardedCache "example" "data" (by decide) (by decide) (by decide)

/-- C3: the lock-call sequence of Get on a hit, as written in the source, is
a shared acquisition that is released and then followed by a separate
exclusive acquisition; it is not a single exclusive critical section. -/
theorem c3_get_lock_trace :
    getLockTrace true =
      [LockEvent.rlock, LockEvent.runlock, LockEvent.wlock, LockEvent.wunlock,
       LockEvent.rlock, LockEvent.runlock] ∧
    getLockTrace true ≠ [LockEvent.wlock, LockEvent.wunlock] := by
  decide

/-- C7: Put returns an error exactly when the key or the value exceeds 256
bytes, and when it errors the cache state is returned unchanged. -/
theorem c7_validation_boundary (c : ShardedCache) (key value : String) :
    ((Put c key value).2.isSome ↔ MaxKeySize < goLen key ∨ MaxValueSize < goLen value) ∧
    ((Put c key value).2.isSome → (Put c key value).1 = c) := by
  by_cases h : MaxKeySize < goLen key ∨ MaxValueSize < goLen value
  · have hp : Put c key value = (c, some "key or value exceeds maximum size") := by
      unfold Put
      rw [if_pos (by simp; omega)]
    rw [hp]
    simp [h]
  · push_neg at h
    have hp : (Put c key value).2 = none := by
      unfold Put
      rw [if_neg (by simp; omega)]
      cases hl : lookup (c.shards.getD (shardIdx key) emptyShard).entries key with
      | none => simp only [hl]
      | some old => simp only [hl]
    rw [hp]
    simp
    omega

theorem c7_witness :
    (Put NewShardedCache (String.mk (List.replicate 257 'a')) "v").2.isSome = true ∧
    ¬ ((Put NewShardedCache (String.mk (List.replicate 256 'a')) "v").2.isSome = true) := by
  constructor
  · exact (c7_validation_boundary NewShardedCache (String.mk (List.replicate 257 'a')) "v").1.mpr
      (Or.inl (by decide))
  · intro hs
    exact absurd
      ((c7_validation_boundary NewShardedCache (String.mk (List.replicate 256 'a')) "v").1.mp hs)
      (by decide)

theorem repKey_inj {i j : Nat} (h : repKey i = repKey j) : i = j := by
  have hd := congrArg (fun s => s.data.length) h
  simpa [repKey] using hd

theorem scanSteps_concat {l : List String} {t : String} (h : t ∉ l) :
    scanSteps (l ++ [t]) t = l.length + 1 := by
  induction l with
  | nil => simp [scanSteps]
  | cons a r ih =>
    have ha : a ≠ t := fun he => h (he ▸ List.mem_cons_self a r)
    simp only [List.cons_append, scanSteps, if_neg ha, List.append_eq]
    rw [ih (fun hm => h (List.mem_cons_of_mem _ hm))]
    simp only [List.length_cons]
    omega

/-- C4 (refuted on the code): for every n there is a shard with n + 1 entries
and a map-iteration order under which the reverse-lookup scan inside
evictOne examines every one of the n + 1 index bindings before finding the
one that references the node being evicted: the lookup is linear in the
shard size, not O(1) via a key stored in the entry (CacheEntry stores no
key). -/
theorem c4_evict_scan_linear (n : Nat) :
    ∃ (sh : Shard) (order : List String) (back : String × CacheEntry),
      sh.entries.getLast? = some back ∧
      order.Perm (sh.entries.map Prod.fst) ∧
      sh.entries.length = n + 1 ∧
      scanSteps order back.1 = n + 1 := by
  refine ⟨⟨(List.range (n + 1)).map (fun m => (repKey m, ⟨"v", 0, 65⟩)), 0⟩,
    (List.range (n + 1)).map repKey, (repKey n, ⟨"v", 0, 65⟩), ?_, ?_, ?_, ?_⟩
  · rw [List.range_succ, List.map_append]
    simp
  · have hmm : ((List.range (n + 1)).map
        (fun m => (repKey m, (⟨"v", 0, 65⟩ : CacheEntry)))).map Prod.fst
        = (List.range (n + 1)).map repKey := by
      simp [List.map_map, Function.comp]
    rw [hmm]
  · simp
  · rw [List.range_succ, List.map_append]
    have hnot : repKey n ∉ (List.range n).map repKey := by
      intro hmem
      obtain ⟨i, hi, hie⟩ := List.mem_map.mp hmem
      have := repKey_inj hie
      simp at hi
      omega
    rw [List.map_cons, List.map_nil] at *
    have := scanSteps_concat hnot
    simpa using this

/-- C9: overwriting a key leaves exactly one entry for it, whose stored size
is computed from the new value only, and (starting from a fresh cache) the
shard size and the global totalSize equal exactly that one entry size. -/
theorem c9_idempotent_overwrite (k v1 v2 : String)
    (hk : goLen k ≤ MaxKeySize) (h1 : goLen v1 ≤ MaxValueSize) (h2 : goLen v2 ≤ MaxValueSize) :
    ((Put (Put NewShardedCache k v1).1 k v2).1.shards.getD (shardIdx k) emptyShard).entries
      = [(k, ⟨v2, 1, (goLen k : Int) + (goLen v2 : Int) + 64⟩)] ∧
    ((Put (Put NewShardedCache k v1).1 k v2).1.shards.getD (shardIdx k) emptyShard).size
      = (goLen k : Int) + (goLen v2 : Int) + 64 ∧
    (Put (Put NewShardedCache k v1).1 k v2).1.totalSize
      = (goLen k : Int) + (goLen v2 : Int) + 64 := by
  have hidx : shardIdx k < NumShards := shardIdx_lt k
  have e0 : NewShardedCache.shards.getD (shardIdx k) emptyShard = emptyShard :=
    getD_replicate_lt hidx
  have hl0 : lookup (NewShardedCache.shards.getD (shardIdx k) emptyShard).entries k = none := by
    rw [e0]
    rfl
  have hp1 : Put NewShardedCache k v1 =
      (⟨(List.replicate NumShards emptyShard).set (shardIdx k)
          ⟨[(k, ⟨v1, 0, entrySize k v1⟩)], 0 + entrySize k v1⟩,
        0 + entrySize k v1, 0 + 1⟩, none) := by
    rw [put_miss hk h1 hl0, e0]
    rfl
  have hA1 : (Put NewShardedCache k v1).1.shards
      = (List.replicate NumShards emptyShard).set (shardIdx k)
          ⟨[(k, ⟨v1, 0, entrySize k v1⟩)], 0 + entrySize k v1⟩ := by
    rw [hp1]
  have hA3 : (Put NewShardedCache k v1).1.clock = 0 + 1 := by
    rw [hp1]
  have hB : lookup ((Put NewShardedCache k v1).1.shards.getD (shardIdx k) emptyShard).entries k
      = some ⟨v1, 0, entrySize k v1⟩ := by
    rw [hA1, getD_set_self (by simpa using hidx)]
    exact lookup_cons_self _ _ _
  rw [put_hit hk h2 hB]
  rw [hA1, hA3]
  rw [@getD_set_self (List.replicate NumShards emptyShard) _ _ _ (by simpa using hidx)]
  rw [getD_set_self (by simpa using hidx)]
  refine ⟨?_, ?_, ?_⟩
  · simp [removeKey, entrySize]
  · simp only [entrySize]
    ring
  · rw [hp1]
    simp only [entrySize]
    ring

theorem c9_witness :
    ((Put (Put NewShardedCache "k" "a").1 "k" "bc").1.shards.getD (shardIdx "k") emptyShard).entries
      = [("k", ⟨"bc", 1, (goLen "k" : Int) + (goLen "bc" : Int) + 64⟩)] ∧
    ((Put (Put NewShardedCache "k" "a").1 "k" "bc").1.shards.getD (shardIdx "k") emptyShard).size
      = (goLen "k" : Int) + (goLen "bc" : Int) + 64 ∧
    (Put (Put NewShardedCache "k" "a").1 "k" "bc").1.totalSize
      = (goLen "k" : Int) + (goLen "bc" : Int) + 64 :=
  c9_idempotent_overwrite "k" "a" "bc" (by decide) (by decide) (by decide)

theorem evictOne_entries (sh : Shard) : (evictOne sh).1.entries = sh.entries.dropLast := by
  unfold evictOne
  cases h : sh.entries.getLast? with
  | none =>
    have he : sh.entries = [] := by
      cases hs : sh.entries with
      | nil => rfl
      | cons a t => rw [hs] at h; simp [List.getLast?_concat] at h
    rw [he]
    rfl
  | some kv => rfl

/-- C6: with three distinct keys A, B, C on the same shard inserted in that
order into a fresh cache, a Get of A followed by one eviction on that shard
removes B: the surviving keys are exactly A and C (in recency order) and B
is no longer in the index. -/
theorem c6_recency_promotion (A B C vA vB vC : String)
    (hAB : A ≠ B) (hBC : B ≠ C) (hAC : A ≠ C)
    (hiB : shardIdx B = shardIdx A) (hiC : shardIdx C = shardIdx A)
    (hkA : goLen A ≤ MaxKeySize) (hvA : goLen vA ≤ MaxValueSize)
    (hkB : goLen B ≤ MaxKeySize) (hvB : goLen vB ≤ MaxValueSize)
    (hkC : goLen C ≤ MaxKeySize) (hvC : goLen vC ≤ MaxValueSize) :
    ((evictOne ((Get (Put (Put (Put NewShardedCache A vA).1 B vB).1 C vC).1 A).2.shards.getD
        (shardIdx A) emptyShard)).1.entries.map Prod.fst = [A, C]) ∧
    lookup ((evictOne ((Get (Put (Put (Put NewShardedCache A vA).1 B vB).1 C vC).1 A).2.shards.getD
        (shardIdx A) emptyShard)).1.entries) B = none := by
  have hBA : B ≠ A := fun h => hAB h.symm
  have hCA : C ≠ A := fun h => hAC h.symm
  have hCB : C ≠ B := fun h => hBC h.symm
  have hidx : shardIdx A < NumShards := shardIdx_lt A
  -- step 1: Put A vA on the fresh cache
  have e0 : NewShardedCache.shards.getD (shardIdx A) emptyShard = emptyShard :=
    getD_replicate_lt hidx
  have hl0 : lookup (NewShardedCache.shards.getD (shardIdx A) emptyShard).entries A = none := by
    rw [e0]
    rfl
  have hp1 := put_miss hkA hvA hl0
  have hlen1 : (Put NewShardedCache A vA).1.shards.length = NumShards := by
    rw [hp1]
    simp [NewShardedCache]
  have E1 : ((Put NewShardedCache A vA).1.shards.getD (shardIdx A) emptyShard).entries
      = [(A, ⟨vA, NewShardedCache.clock, entrySize A vA⟩)] := by
    rw [hp1]
    show (((NewShardedCache.shards.set (shardIdx A) _) : List Shard).getD
      (shardIdx A) emptyShard).entries = _
    rw [getD_set_self (by simpa [NewShardedCache] using hidx), e0]
    rfl
  -- step 2: Put B vB
  have hlB : lookup ((Put NewShardedCache A vA).1.shards.getD (shardIdx B) emptyShard).entries B
      = none := by
    rw [hiB, E1]
    simp [lookup, hAB]
  have hp2 := put_miss hkB hvB hlB
  have hlen2 : (Put (Put NewShardedCache A vA).1 B vB).1.shards.length = NumShards := by
    rw [hp2]
    simpa using hlen1
  have E2 : ((Put (Put NewShardedCache A vA).1 B vB).1.shards.getD (shardIdx A) emptyShard).entries
      = [(B, ⟨vB, (Put NewShardedCache A vA).1.clock, entrySize B vB⟩),
         (A, ⟨vA, NewShardedCache.clock, entrySize A vA⟩)] := by
    rw [hp2, hiB]
    show (((Put NewShardedCache A vA).1.shards.set (shardIdx A) _).getD
      (shardIdx A) emptyShard).entries = _
    rw [getD_set_self (by rw [hlen1]; exact hidx)]
    show _ :: ((Put NewShardedCache A vA).1.shards.getD (shardIdx A) emptyShard).entries = _
    rw [E1]
  -- step 3: Put C vC
  have hlC : lookup ((Put (Put NewShardedCache A vA).1 B vB).1.shards.getD
      (shardIdx C) emptyShard).entries C = none := by
    rw [hiC, E2]
    simp [lookup, hBC, hAC]
  have hp3 := put_miss hkC hvC hlC
  have hlen3 : (Put (Put (Put NewShardedCache A vA).1 B vB).1 C vC).1.shards.length
      = NumShards := by
    rw [hp3]
    simpa using hlen2
  have E3 : ((Put (Put (Put NewShardedCache A vA).1 B vB).1 C vC).1.shards.getD
      (shardIdx A) emptyShard).entries
      = [(C, ⟨vC, (Put (Put NewShardedCache A vA).1 B vB).1.clock, entrySize C vC⟩),
         (B, ⟨vB, (Put NewShardedCache A vA).1.clock, entrySize B vB⟩),
         (A, ⟨vA, NewShardedCache.clock, entrySize A vA⟩)] := by
    rw [hp3, hiC]
    show (((Put (Put NewShardedCache A vA).1 B vB).1.shards.set (shardIdx A) _).getD
      (shardIdx A) emptyShard).entries = _
    rw [getD_set_self (by rw [hlen2]; exact hidx)]
    show _ :: ((Put (Put NewShardedCache A vA).1 B vB).1.shards.getD
      (shardIdx A) emptyShard).entries = _
    rw [E2]
  -- step 4: Get A promotes A to the front
  have hlA : lookup ((Put (Put (Put NewShardedCache A vA).1 B vB).1 C vC).1.shards.getD
      (shardIdx A) emptyShard).entries A
      = some ⟨vA, NewShardedCache.clock, entrySize A vA⟩ := by
    rw [E3]
    simp [lookup, hCA, hBA]
  have hp4 := get_hit hlA
  have E4 : ((Get (Put (Put (Put NewShardedCache A vA).1 B vB).1 C vC).1 A).2.shards.getD
      (shardIdx A) emptyShard).entries
      = [(A, ⟨vA, (Put (Put (Put NewShardedCache A vA).1 B vB).1 C vC).1.clock,
            entrySize A vA⟩),
         (C, ⟨vC, (Put (Put NewShardedCache A vA).1 B vB).1.clock, entrySize C vC⟩),
         (B, ⟨vB, (Put NewShardedCache A vA).1.clock, entrySize B vB⟩)] := by
    rw [hp4]
    show (((Put (Put (Put NewShardedCache A vA).1 B vB).1 C vC).1.shards.set (shardIdx A) _).getD
      (shardIdx A) emptyShard).entries = _
    rw [getD_set_self (by rw [hlen3]; exact hidx)]
    show _ :: removeKey ((Put (Put (Put NewShardedCache A vA).1 B vB).1 C vC).1.shards.getD
      (shardIdx A) emptyShard).entries A = _
    rw [E3]
    simp [removeKey, hCA, hBA]
  -- step 5: evict once from that shard
  rw [evictOne_entries, E4]
  constructor
  · rfl
  · simp [lookup, hAB, hCB]

theorem c6_witness :
    ((evictOne ((Get (Put (Put (Put NewShardedCache "A" "1").1 "a" "2").1 "!" "3").1
        "A").2.shards.getD (shardIdx "A") emptyShard)).1.entries.map Prod.fst = ["A", "!"]) ∧
    lookup ((evictOne ((Get (Put (Put (Put NewShardedCache "A" "1").1 "a" "2").1 "!" "3").1
        "A").2.shards.getD (shardIdx "A") emptyShard)).1.entries) "a" = none :=
  c6_recency_promotion "A" "a" "!" "1" "2" "3" (by decide) (by decide) (by decide)
    (by decide) (by decide) (by decide) (by decide) (by decide) (by decide)
    (by decide) (by decide)

theorem lookup_removeKey_ne {l : List (String × CacheEntry)} {key k2 : String}
    (h : k2 ≠ key) : lookup (removeKey l key) k2 = lookup l k2 := by
  induction l with
  | nil => rfl
  | cons p t ih =>
    by_cases hp : p.1 = key
    · rw [removeKey, if_pos hp, lookup, if_neg (by rw [hp]; exact fun he => h he.symm)]
    · rw [removeKey, if_neg hp]
      by_cases hq : p.1 = k2
      · rw [lookup, if_pos hq, lookup, if_pos hq]
      · rw [lookup, if_neg hq, lookup, if_neg hq, ih]

theorem keys_perm_of_lookup {l : List (String × CacheEntry)} {key : String} {e : CacheEntry}
    (h : lookup l key = some e) :
    (key :: (removeKey l key).map Prod.fst).Perm (l.map Prod.fst) := by
  induction l with
  | nil => simp [lookup] at h
  | cons p t ih =>
    by_cases hp : p.1 = key
    · rw [removeKey, if_pos hp, List.map_cons, ← hp]
    · rw [lookup, if_neg hp] at h
      rw [removeKey, if_neg hp, List.map_cons, List.map_cons]
      exact (List.Perm.swap p.1 key _).trans (List.Perm.cons p.1 (ih h))

theorem map_size_set_of_size_eq {l : List Shard} {i : Nat} {x : Shard}
    (h : x.size = (l.getD i emptyShard).size) :
    (l.set i x).map Shard.size = l.map Shard.size := by
  induction l generalizing i with
  | nil => rfl
  | cons a t ih =>
    cases i with
    | zero => simpa using h
    | succ j =>
      simp only [List.set_cons_succ, List.map_cons]
      rw [ih (by simpa using h)]

/-- C10: Get never changes totalSize, any shard's size field, the multiset of
keys of any shard, or any stored value; and on a key that is absent it
returns ("", false) and the entire state unchanged. -/
theorem c10_get_frame (c : ShardedCache) (key : String) :
    ((Get c key).2.totalSize = c.totalSize) ∧
    ((Get c key).2.shards.map Shard.size = c.shards.map Shard.size) ∧
    (∀ j : Nat, (((Get c key).2.shards.getD j emptyShard).entries.map Prod.fst).Perm
        ((c.shards.getD j emptyShard).entries.map Prod.fst)) ∧
    (∀ k2 : String, valueAt (Get c key).2 k2 = valueAt c k2) ∧
    (lookup (c.shards.getD (shardIdx key) emptyShard).entries key = none →
       Get c key = (("", false), c)) := by
  cases hl : lookup (c.shards.getD (shardIdx key) emptyShard).entries key with
  | none =>
    rw [get_miss hl]
    refine ⟨rfl, rfl, ?_, ?_, ?_⟩
    · intro j
      exact List.Perm.refl _
    · intro k2
      rfl
    · intro h
      rfl
  | some e =>
    rw [get_hit hl]
    refine ⟨rfl, ?_, ?_, ?_, ?_⟩
    · exact map_size_set_of_size_eq rfl
    · intro j
      by_cases hj : j = shardIdx key
      · subst hj
        by_cases hlt : shardIdx key < c.shards.length
        · rw [getD_set_self hlt]
          exact keys_perm_of_lookup hl
        · rw [List.set_eq_of_length_le (le_of_not_lt hlt)]
      · rw [getD_set_ne hj]
    · intro k2
      unfold valueAt
      by_cases hs : shardIdx k2 = shardIdx key
      · rw [hs]
        by_cases hlt : shardIdx key < c.shards.length
        · rw [getD_set_self hlt]
          by_cases hk2 : k2 = key
          · subst hk2
            rw [lookup_cons_self, hl]
            rfl
          · show (lookup ((key, _) :: removeKey _ key) k2).map _ = _
            rw [lookup, if_neg (fun he => hk2 he.symm), lookup_removeKey_ne hk2]
        · rw [List.set_eq_of_length_le (le_of_not_lt hlt)]
      · rw [getD_set_ne hs]
    · intro h
      simp at h

theorem c10_witness :
    ((Get (Put NewShardedCache "a" "b").1 "zzz").2.totalSize
        = (Put NewShardedCache "a" "b").1.totalSize) ∧
    (Get (Put NewShardedCache "a" "b").1 "zzz"
        = (("", false), (Put NewShardedCache "a" "b").1)) :=
  ⟨(c10_get_frame (Put NewShardedCache "a" "b").1 "zzz").1,
   (c10_get_frame (Put NewShardedCache "a" "b").1 "zzz").2.2.2.2 (by decide)⟩

theorem evictOne_of_ne_nil {sh : Shard} (h : sh.entries ≠ []) :
    evictOne sh =
      (⟨sh.entries.dropLast, sh.size - (sh.entries.getLast h).2.size⟩,
       (sh.entries.getLast h).2.size) := by
  unfold evictOne
  rw [List.getLast?_eq_getLast _ h]

theorem evictN_spec (n : Nat) (sh : Shard) :
    evictN sh n =
      (⟨sh.entries.take (sh.entries.length - min n sh.entries.length),
        sh.size - entriesSize (sh.entries.drop (sh.entries.length - min n sh.entries.length))⟩,
       entriesSize (sh.entries.drop (sh.entries.length - min n sh.entries.length))) := by
  induction n generalizing sh with
  | zero =>
    obtain ⟨es, sz⟩ := sh
    simp [evictN, entriesSize]
  | succ m ih =>
    obtain ⟨es, sz⟩ := sh
    by_cases h : es = []
    · subst h
      simp [evictN, entriesSize]
    · have hlen : es.length > 0 := List.length_pos.mpr h
      have hdec : es.dropLast ++ [es.getLast h] = es := List.dropLast_concat_getLast h
      have hlend : es.dropLast.length = es.length - 1 := List.length_dropLast _
      have htgt : es.length - min (m + 1) es.length ≤ es.dropLast.length := by
        rw [hlend]; omega
      have harith : es.dropLast.length - min m es.dropLast.length
          = es.length - min (m + 1) es.length := by
        rw [hlend]; omega
      have htake : es.dropLast.take (es.length - min (m + 1) es.length)
          = es.take (es.length - min (m + 1) es.length) := by
        have h2 : es.length - min (m + 1) es.length ≤ es.dropLast.length := htgt
        generalize hq : es.length - min (m + 1) es.length = q at h2 ⊢
        conv_rhs => rw [← hdec]
        rw [List.take_append_of_le_length h2]
      have hdrop : es.drop (es.length - min (m + 1) es.length)
          = es.dropLast.drop (es.length - min (m + 1) es.length) ++ [es.getLast h] := by
        have h2 : es.length - min (m + 1) es.length ≤ es.dropLast.length := htgt
        generalize hq : es.length - min (m + 1) es.length = q at h2 ⊢
        conv_lhs => rw [← hdec]
        rw [List.drop_append_of_le_length h2]
      have hes : entriesSize (es.dropLast.drop (es.length - min (m + 1) es.length)
            ++ [es.getLast h])
          = entriesSize (es.dropLast.drop (es.length - min (m + 1) es.length))
            + (es.getLast h).2.size := by
        simp [entriesSize]
      simp only [evictN, if_pos hlen]
      rw [@evictOne_of_ne_nil ⟨es, sz⟩ h, ih]
      dsimp only
      rw [harith, htake, hdrop, hes]
      refine congrArg₂ Prod.mk (congrArg₂ Shard.mk rfl (by ring)) (by ring)

theorem getD_map_shard (f : Shard → Shard) {l : List Shard} {i : Nat}
    (h : i < l.length) :
    (l.map f).getD i emptyShard = f (l.getD i emptyShard) := by
  induction l generalizing i with
  | nil => simp at h
  | cons a t ih =>
    cases i with
    | zero => simp
    | succ j => simpa using ih (by simpa using h)

/-- C5: EvictBatch with target count makes max(1, count / NumShards) eviction
attempts on every shard (each shard loses exactly min(quota, entries) of its
oldest entries, so it stops early only on emptiness), decrements totalSize by
exactly the returned total, and the returned total is the sum over shards of
the stored sizes of the evicted entries (less than requested when shards run
out, with no error). -/
theorem c5_evict_batch_distribution (c : ShardedCache) (count : Nat) :
    ((EvictBatch c count).1.shards.length = c.shards.length) ∧
    (∀ i : Nat, i < c.shards.length →
      ((EvictBatch c count).1.shards.getD i emptyShard).entries
        = (c.shards.getD i emptyShard).entries.take
            ((c.shards.getD i emptyShard).entries.length
              - min (max 1 (count / NumShards))
                  (c.shards.getD i emptyShard).entries.length)) ∧
    ((EvictBatch c count).1.totalSize = c.totalSize - (EvictBatch c count).2) ∧
    ((EvictBatch c count).2
      = (c.shards.map (fun sh => entriesSize (sh.entries.drop
          (sh.entries.length
            - min (max 1 (count / NumShards)) sh.entries.length)))).sum) := by
  have hq : (if count / NumShards < 1 then 1 else count / NumShards)
      = max 1 (count / NumShards) := by
    split <;> omega
  have hEB1 : (EvictBatch c count).1.shards
      = c.shards.map (fun sh => (evictN sh (max 1 (count / NumShards))).1) := by
    simp only [EvictBatch, hq, List.map_map]
    rfl
  have hEB4 : (EvictBatch c count).2
      = ((c.shards.map (fun sh => evictN sh (max 1 (count / NumShards)))).map
          Prod.snd).sum := by
    simp only [EvictBatch, hq]
  refine ⟨?_, ?_, ?_, ?_⟩
  · rw [hEB1]
    simp
  · intro i hi
    rw [hEB1, getD_map_shard _ hi, evictN_spec]
  · rfl
  · rw [hEB4, List.map_map]
    have hfun : (Prod.snd ∘ fun sh => evictN sh (max 1 (count / NumShards)))
        = fun sh : Shard => entriesSize (sh.entries.drop
            (sh.entries.length
              - min (max 1 (count / NumShards)) sh.entries.length)) := by
      funext sh
      show (evictN sh (max 1 (count / NumShards))).2 = _
      rw [evictN_spec]
    rw [hfun]

theorem c5_witness :
    ((EvictBatch (Put NewShardedCache "a" "b").1 100).1.shards.length
        = (Put NewShardedCache "a" "b").1.shards.length) ∧
    ((EvictBatch (Put NewShardedCache "a" "b").1 100).1.shards.getD
        (shardIdx "a") emptyShard).entries = [] ∧
    ((EvictBatch (Put NewShardedCache "a" "b").1 100).1.totalSize
        = (Put NewShardedCache "a" "b").1.totalSize
          - (EvictBatch (Put NewShardedCache "a" "b").1 100).2) := by
  refine ⟨(c5_evict_batch_distribution (Put NewShardedCache "a" "b").1 100).1, ?_, ?_⟩
  · rw [(c5_evict_batch_distribution (Put NewShardedCache "a" "b").1 100).2.1
      (shardIdx "a") (by decide)]
    decide
  · exact (c5_evict_batch_distribution (Put NewShardedCache "a" "b").1 100).2.2.1

theorem entriesSize_removeKey {l : List (String × CacheEntry)} {k : String} {e : CacheEntry}
    (h : lookup l k = some e) :
    entriesSize (removeKey l k) = entriesSize l - e.size := by
  induction l with
  | nil => simp [lookup] at h
  | cons p t ih =>
    by_cases hp : p.1 = k
    · rw [lookup, if_pos hp] at h
      rw [removeKey, if_pos hp]
      have he : p.2 = e := by injection h
      simp [entriesSize, he]
    · rw [lookup, if_neg hp] at h
      rw [removeKey, if_neg hp]
      simp only [entriesSize, List.map_cons, List.sum_cons] at *
      rw [ih h]
      ring

theorem sum_size_set {l : List Shard} {i : Nat} {x : Shard} (h : i < l.length) :
    ((l.set i x).map Shard.size).sum
      = (l.map Shard.size).sum - (l.getD i emptyShard).size + x.size := by
  induction l generalizing i with
  | nil => simp at h
  | cons a t ih =>
    cases i with
    | zero => simp; ring
    | succ j =>
      simp only [List.set_cons_succ, List.map_cons, List.sum_cons, List.getD_cons_succ]
      rw [ih (by simpa using h)]
      ring

theorem inv_put {c : ShardedCache} (hOk : cacheOk c) (hlen : c.shards.length = NumShards)
    (k v : String) :
    cacheOk (Put c k v).1 ∧ (Put c k v).1.shards.length = NumShards := by
  by_cases hval : MaxKeySize < goLen k ∨ MaxValueSize < goLen v
  · have hp : Put c k v = (c, some "key or value exceeds maximum size") := by
      unfold Put
      rw [if_pos (by simp; omega)]
    rw [hp]
    exact ⟨hOk, hlen⟩
  · push_neg at hval
    obtain ⟨hk, hv⟩ := hval
    have hidx : shardIdx k < c.shards.length := by rw [hlen]; exact shardIdx_lt k
    have hmem : c.shards.getD (shardIdx k) emptyShard ∈ c.shards := getD_mem hidx
    have hshOk : (c.shards.getD (shardIdx k) emptyShard).size
        = entriesSize (c.shards.getD (shardIdx k) emptyShard).entries := hOk.2 _ hmem
    cases hl : lookup (c.shards.getD (shardIdx k) emptyShard).entries k with
    | none =>
      rw [put_miss hk hv hl]
      refine ⟨⟨?_, ?_⟩, by simpa using hlen⟩
      · show c.totalSize + entrySize k v = _
        rw [sum_size_set hidx, ← hOk.1]
        show _ = c.totalSize - (c.shards.getD (shardIdx k) emptyShard).size
          + ((c.shards.getD (shardIdx k) emptyShard).size + entrySize k v)
        ring
      · intro sh hsh
        rcases List.mem_or_eq_of_mem_set hsh with hmem2 | heq
        · exact hOk.2 _ hmem2
        · subst heq
          show (c.shards.getD (shardIdx k) emptyShard).size + entrySize k v
            = entriesSize ((k, ⟨v, c.clock, entrySize k v⟩)
                :: (c.shards.getD (shardIdx k) emptyShard).entries)
          simp only [entriesSize, List.map_cons, List.sum_cons]
          rw [hshOk]
          show _ = entrySize k v + entriesSize (c.shards.getD (shardIdx k) emptyShard).entries
          ring
    | some old =>
      rw [put_hit hk hv hl]
      refine ⟨⟨?_, ?_⟩, by simpa using hlen⟩
      · show c.totalSize + (entrySize k v - old.size) = _
        rw [sum_size_set hidx, ← hOk.1]
        show _ = c.totalSize - (c.shards.getD (shardIdx k) emptyShard).size
          + ((c.shards.getD (shardIdx k) emptyShard).size + (entrySize k v - old.size))
        ring
      · intro sh hsh
        rcases List.mem_or_eq_of_mem_set hsh with hmem2 | heq
        · exact hOk.2 _ hmem2
        · subst heq
          show (c.shards.getD (shardIdx k) emptyShard).size + (entrySize k v - old.size)
            = entriesSize ((k, ⟨v, c.clock, entrySize k v⟩)
                :: removeKey (c.shards.getD (shardIdx k) emptyShard).entries k)
          simp only [entriesSize, List.map_cons, List.sum_cons]
          have hrk := entriesSize_removeKey hl
          unfold entriesSize at hrk hshOk
          rw [hrk, hshOk]
          ring

theorem evictN_fst_size (sh : Shard) (p : Nat) :
    ((evictN sh p).1).size = sh.size - (evictN sh p).2 := by
  rw [evictN_spec]

theorem sum_size_evictN (l : List Shard) (p : Nat) :
    ((l.map (fun sh => (evictN sh p).1)).map Shard.size).sum
      = (l.map Shard.size).sum - ((l.map (fun sh => evictN sh p)).map Prod.snd).sum := by
  induction l with
  | nil => simp
  | cons a t ih =>
    simp only [List.map_cons, List.sum_cons]
    rw [ih, evictN_fst_size]
    ring

theorem shardOk_evictN {sh : Shard} (h : shardOk sh) (p : Nat) :
    shardOk (evictN sh p).1 := by
  unfold shardOk at *
  rw [evictN_spec]
  show sh.size - entriesSize (sh.entries.drop _) = entriesSize (sh.entries.take _)
  have hsplit : entriesSize sh.entries
      = entriesSize (sh.entries.take (sh.entries.length - min p sh.entries.length))
        + entriesSize (sh.entries.drop (sh.entries.length - min p sh.entries.length)) := by
    conv_lhs => rw [← List.take_append_drop
      (sh.entries.length - min p sh.entries.length) sh.entries]
    simp [entriesSize]
  rw [h, hsplit]
  ring

theorem inv_evict {c : ShardedCache} (hOk : cacheOk c) (hlen : c.shards.length = NumShards)
    (n : Nat) :
    cacheOk (EvictBatch c n).1 ∧ (EvictBatch c n).1.shards.length = NumShards := by
  have hEB1 : (EvictBatch c n).1.shards
      = c.shards.map (fun sh => (evictN sh (if n / NumShards < 1 then 1
          else n / NumShards)).1) := by
    simp only [EvictBatch, List.map_map]
    rfl
  have hEB2 : (EvictBatch c n).1.totalSize
      = c.totalSize - ((c.shards.map (fun sh => evictN sh (if n / NumShards < 1 then 1
          else n / NumShards))).map Prod.snd).sum := by
    simp only [EvictBatch]
  refine ⟨⟨?_, ?_⟩, by rw [hEB1]; simpa using hlen⟩
  · rw [hEB1, hEB2, sum_size_evictN, hOk.1]
  · intro sh hsh
    rw [hEB1] at hsh
    obtain ⟨sh0, hmem0, heq⟩ := List.mem_map.mp hsh
    subst heq
    exact shardOk_evictN (hOk.2 _ hmem0) _

theorem evictOne_ok {sh : Shard} (h : shardOk sh) :
    shardOk (evictOne sh).1 ∧ (evictOne sh).1.size = sh.size - (evictOne sh).2 := by
  by_cases hn : sh.entries = []
  · have he : evictOne sh = (sh, 0) := by
      unfold evictOne
      rw [hn]
      rfl
    rw [he]
    exact ⟨h, by show sh.size = sh.size - 0; ring⟩
  · rw [evictOne_of_ne_nil hn]
    have hdec : sh.entries.dropLast ++ [sh.entries.getLast hn] = sh.entries :=
      List.dropLast_concat_getLast hn
    have hsplit : entriesSize sh.entries
        = entriesSize sh.entries.dropLast + (sh.entries.getLast hn).2.size := by
      conv_lhs => rw [← hdec]
      simp [entriesSize]
    constructor
    · show sh.size - (sh.entries.getLast hn).2.size = entriesSize sh.entries.dropLast
      unfold shardOk at h
      rw [h, hsplit]
      ring
    · rfl

/-- C2: after any sequence of Put and eviction calls starting from a fresh
cache (EvictBatch, which runs evictOne and settles its freed bytes against
totalSize), totalSize equals the sum of the shards' size fields and every
shard's size field equals the sum of its entries' stored sizes; moreover a
single evictOne preserves the per-shard accounting, decrementing the size
field by exactly the freed bytes. -/
theorem c2_size_accounting :
    (∀ ops : List Op, cacheOk (runOps ops)) ∧
    (∀ sh : Shard, shardOk sh →
      shardOk (evictOne sh).1 ∧ (evictOne sh).1.size = sh.size - (evictOne sh).2) := by
  constructor
  · have hgen : ∀ (ops : List Op) (c : ShardedCache), cacheOk c →
        c.shards.length = NumShards →
        cacheOk (ops.foldl applyOp c) ∧ (ops.foldl applyOp c).shards.length = NumShards := by
      intro ops
      induction ops with
      | nil => exact fun c h1 h2 => ⟨h1, h2⟩
      | cons op rest ih =>
        intro c h1 h2
        cases op with
        | put k v => exact ih _ (inv_put h1 h2 k v).1 (inv_put h1 h2 k v).2
        | evict n => exact ih _ (inv_evict h1 h2 n).1 (inv_evict h1 h2 n).2
    intro ops
    exact (hgen ops NewShardedCache (by constructor <;> decide) (by decide)).1
  · exact fun sh h => evictOne_ok h

theorem c2_witness :
    cacheOk (runOps [Op.put "a" "bc", Op.put "a" "d", Op.evict 3]) ∧
    shardOk (evictOne ⟨[("x", ⟨"y", 0, 66⟩)], 66⟩).1 :=
  ⟨c2_size_accounting.1 [Op.put "a" "bc", Op.put "a" "d", Op.evict 3],
   (c2_size_accounting.2 ⟨[("x", ⟨"y", 0, 66⟩)], 66⟩ (by decide)).1⟩

end KvCache
